import Mathlib

/-!
Shallow embedding of `react-query-key-manager` (src/src/index.ts): the
`QueryKeyManager` class (static `registry` / `keyNames` state, `create`,
`getQueryKeys`, `clearRegistry`) and the free function `migrateLegacyKeys`.

Builders (JS functions producing query keys) are opaque to the registry: the
code only stores them and compares presence, never calls them.  We model a
builder by a `Nat` identifier.  The JS object `registry` is modelled as an
association list in insertion order (JS objects preserve string-key insertion
order, and property assignment updates the first matching key in place or
appends a fresh key at the end); the JS `Set` `keyNames` is a `List String`
in insertion order with membership-guarded append.
-/

namespace RQKM

mutual
/-- A value occurring in a namespace tree passed to `create`:
a builder function (`typeof value === 'function'`), a plain keyed object
(recursed into, since `value && typeof value === 'object'`), or any other
value (`null`, number, boolean, undefined, ...), which the walk ignores. -/
inductive TreeVal : Type where
  | builder (b : Nat)
  | node (children : Entries)
  | scalar
deriving DecidableEq

/-- The ordered key/value list of a JS object literal (`Object.entries` order). -/
inductive Entries : Type where
  | nil
  | cons (key : String) (val : TreeVal) (rest : Entries)
deriving DecidableEq
end

/-- JS property read `m[k]` on an object with string keys. -/
def lookupKey (k : String) : List (String × Nat) → Option Nat
  | [] => none
  | (a, v) :: rest => if a = k then some v else lookupKey k rest

/-- JS property assignment `m[k] = v`: updates the existing key in place,
or appends a new key at the end, preserving insertion order. -/
def insertKey (m : List (String × Nat)) (k : String) (v : Nat) : List (String × Nat) :=
  match m with
  | [] => [(k, v)]
  | (a, w) :: rest => if a = k then (k, v) :: rest else (a, w) :: insertKey rest k v

/-- The process-wide static state of `QueryKeyManager`:
`registry` is the flattened path-to-builder index (the spec calls it
`flatIndex`), `keyNames` the set of namespace names already seen
(the spec calls it `seenNames`). -/
structure RegistryState where
  registry : List (String × Nat)
  keyNames : List String
deriving DecidableEq

/-- The initial static state: `registry = {}`, `keyNames = new Set()`. -/
def emptyState : RegistryState := ⟨[], []⟩

mutual
/-- The inner `register(prefix, node)` closure of `create`: a function node is
stored at the accumulated prefix; an object node is walked entry by entry. -/
def register (reg : List (String × Nat)) (pre : String) : TreeVal → List (String × Nat)
  | .builder b => insertKey reg pre b
  | .node es => registerEntries reg pre es
  | .scalar => reg

/-- The `for (const [key, value] of Object.entries(node))` loop of `register`:
a function value is stored at `prefix + "." + key`; a non-null object value is
recursed into; anything else is skipped. -/
def registerEntries (reg : List (String × Nat)) (pre : String) : Entries → List (String × Nat)
  | .nil => reg
  | .cons k v rest =>
    let fullKey := pre ++ "." ++ k
    let reg2 : List (String × Nat) :=
      match v with
      | .builder b => insertKey reg fullKey b
      | .node es => register reg fullKey (TreeVal.node es)
      | .scalar => reg
    registerEntries reg2 pre rest
end

/-- `QueryKeyManager.create(name, keyMap)`, with `process.env.NODE_ENV`
passed explicitly as `nodeEnv`.  A duplicate name throws (as an
`Except.error` carrying the message) when `NODE_ENV !== 'production'` and is
silently skipped otherwise; a fresh name is added to `keyNames` and the tree
is walked by `register`.  The state component of the result is the static
state after the call (unchanged on both duplicate paths, since the throw
happens before any mutation). -/
def create (nodeEnv : String) (name : String) (keyMap : TreeVal) (st : RegistryState) :
    Except String TreeVal × RegistryState :=
  if name ∈ st.keyNames then
    if nodeEnv ≠ "production" then
      (Except.error ("QueryKeyManager: Key name \x22" ++ name ++ "\x22 already exists"), st)
    else
      (Except.ok keyMap, st)
  else
    (Except.ok keyMap, ⟨register st.registry name keyMap, st.keyNames ++ [name]⟩)

/-- The result of `Object.freeze({ ...registry })`: a shallow copy of the
entries, marked frozen. -/
structure FrozenMap where
  entries : List (String × Nat)
  frozen : Bool
deriving DecidableEq

/-- Property assignment on the object returned by `getQueryKeys`.  The source
is an ES module, so it runs in strict mode, where assigning to a property of
an object frozen by `Object.freeze` throws a `TypeError` and changes nothing. -/
def FrozenMap.assign (f : FrozenMap) (k : String) (v : Nat) : Except String FrozenMap :=
  if f.frozen then
    Except.error ("TypeError: Cannot assign to read only property " ++ k)
  else
    Except.ok ⟨insertKey f.entries k v, f.frozen⟩

/-- `QueryKeyManager.getQueryKeys()`: returns `Object.freeze({ ...this.registry })`,
a frozen shallow copy of the flat index. -/
def getQueryKeys (st : RegistryState) : FrozenMap := ⟨st.registry, true⟩

/-- `QueryKeyManager.clearRegistry()`: `registry = {}; keyNames.clear()`. -/
def clearRegistry (_st : RegistryState) : RegistryState := ⟨[], []⟩

/-- `migrateLegacyKeys(legacyKey, newBuilder)`: warns in dev (diagnostic only,
not modelled), throws when `getQueryKeys()[legacyKey]` is truthy (registry
values are functions, which are always truthy, so truthiness is presence),
and otherwise returns `newBuilder`.  It never writes to the registry. -/
def migrateLegacyKeys (legacyKey : String) (newBuilder : Nat) (st : RegistryState) :
    Except String Nat × RegistryState :=
  match lookupKey legacyKey (getQueryKeys st).entries with
  | some _ => (Except.error ("Legacy key " ++ legacyKey ++ " conflicts with new keys"), st)
  | none => (Except.ok newBuilder, st)

/-- A sequence of `create` calls, threading the static state. -/
def createSeq (nodeEnv : String) : List (String × TreeVal) → RegistryState → RegistryState
  | [], st => st
  | (n, t) :: rest, st => createSeq nodeEnv rest (create nodeEnv n t st).2

mutual
/-- The (dotted path, builder) pairs that the walk `register _ pre t` writes,
in traversal order: one pair per function-valued leaf of `t`. -/
def builderPathsFrom (pre : String) : TreeVal → List (String × Nat)
  | .builder b => [(pre, b)]
  | .node es => builderEntryPaths pre es
  | .scalar => []

/-- Entry-list version of `builderPathsFrom`. -/
def builderEntryPaths (pre : String) : Entries → List (String × Nat)
  | .nil => []
  | .cons k v rest =>
    (match v with
      | .builder b => [(pre ++ "." ++ k, b)]
      | .node es => builderPathsFrom (pre ++ "." ++ k) (TreeVal.node es)
      | .scalar => []) ++ builderEntryPaths pre rest
end

mutual
/-- The dotted paths of the sub-tree (plain object) positions of `t` under
prefix `pre`: the positions the walk recurses through without writing. -/
def subtreePathsFrom (pre : String) : TreeVal → List String
  | .builder _ => []
  | .node es => subtreeEntryPaths pre es
  | .scalar => []

/-- Entry-list version of `subtreePathsFrom`. -/
def subtreeEntryPaths (pre : String) : Entries → List String
  | .nil => []
  | .cons k v rest =>
    (match v with
      | .builder _ => []
      | .node es =>
        (pre ++ "." ++ k) :: subtreePathsFrom (pre ++ "." ++ k) (TreeVal.node es)
      | .scalar => []) ++ subtreeEntryPaths pre rest
end

mutual
/-- `t` with every entry whose value is neither a function nor an object
removed, at every depth. -/
def pruneScalars : TreeVal → TreeVal
  | .builder b => .builder b
  | .node es => .node (pruneEntries es)
  | .scalar => .scalar

/-- Entry-list version of `pruneScalars`. -/
def pruneEntries : Entries → Entries
  | .nil => .nil
  | .cons k v rest =>
    match v with
    | .builder b => .cons k (.builder b) (pruneEntries rest)
    | .node es => .cons k (pruneScalars (TreeVal.node es)) (pruneEntries rest)
    | .scalar => pruneEntries rest
end

/-- All (path, builder) pairs produced by a sequence of `create` calls. -/
def allBuilderPaths (calls : List (String × TreeVal)) : List (String × Nat) :=
  (calls.map (fun c => builderPathsFrom c.1 c.2)).flatten

/-- Folding a list of (path, builder) writes into a registry, in order. -/
def insertAll (reg : List (String × Nat)) (ps : List (String × Nat)) : List (String × Nat) :=
  ps.foldl (fun r pb => insertKey r pb.1 pb.2) reg

/-! ### Association-list lemmas -/

theorem lookupKey_eq_none_iff (k : String) (m : List (String × Nat)) :
    lookupKey k m = none ↔ k ∉ m.map Prod.fst := by
  induction m with
  | nil => simp [lookupKey]
  | cons hd tl ih =>
    obtain ⟨a, v⟩ := hd
    by_cases h : a = k
    · subst h
      simp [lookupKey]
    · have hka : ¬k = a := fun hh => h hh.symm
      rw [List.map_cons]
      simp only [lookupKey, if_neg h, List.mem_cons, not_or]
      rw [ih]
      simp [hka]

theorem lookupKey_insertKey_self (m : List (String × Nat)) (k : String) (v : Nat) :
    lookupKey k (insertKey m k v) = some v := by
  induction m with
  | nil => simp [insertKey, lookupKey]
  | cons hd tl ih =>
    obtain ⟨a, w⟩ := hd
    by_cases h : a = k <;> simp [insertKey, lookupKey, h, ih]

theorem lookupKey_insertKey_ne (m : List (String × Nat)) (k : String) (v : Nat)
    (p : String) (h : p ≠ k) :
    lookupKey p (insertKey m k v) = lookupKey p m := by
  induction m with
  | nil => simp [insertKey, lookupKey, Ne.symm h]
  | cons hd tl ih =>
    obtain ⟨a, w⟩ := hd
    by_cases hak : a = k
    · subst hak
      simp [insertKey, lookupKey, Ne.symm h]
    · by_cases hap : a = p <;> simp [insertKey, lookupKey, hak, hap, ih, h]

theorem insertKey_of_lookupKey_none (m : List (String × Nat)) (k : String) (v : Nat)
    (h : lookupKey k m = none) :
    insertKey m k v = m ++ [(k, v)] := by
  induction m with
  | nil => simp [insertKey]
  | cons hd tl ih =>
    obtain ⟨a, w⟩ := hd
    by_cases hak : a = k
    · simp [lookupKey, hak] at h
    · simp [lookupKey, hak] at h
      simp [insertKey, hak, ih h]

theorem lookupKey_append_of_none (p : String) (m1 m2 : List (String × Nat))
    (h : lookupKey p m1 = none) :
    lookupKey p (m1 ++ m2) = lookupKey p m2 := by
  induction m1 with
  | nil => simp
  | cons hd tl ih =>
    obtain ⟨a, w⟩ := hd
    by_cases hap : a = p
    · simp [lookupKey, hap] at h
    · simp [lookupKey, hap] at h
      simpa [lookupKey, hap] using ih h

theorem lookupKey_of_mem_nodup (ps : List (String × Nat)) (p : String) (b : Nat)
    (hnd : (ps.map Prod.fst).Nodup) (hm : (p, b) ∈ ps) :
    lookupKey p ps = some b := by
  induction ps with
  | nil => simp at hm
  | cons hd tl ih =>
    obtain ⟨a, w⟩ := hd
    rw [List.map_cons] at hnd
    obtain ⟨hhead, htail⟩ := List.nodup_cons.mp hnd
    rcases List.mem_cons.mp hm with h | h
    · injection h with h1 h2
      subst h1
      subst h2
      simp [lookupKey]
    · have hane : a ≠ p := by
        rintro rfl
        exact hhead (List.mem_map.mpr ⟨(a, b), h, rfl⟩)
      simp only [lookupKey, if_neg hane]
      exact ih htail h

/-! ### `insertAll` lemmas -/

theorem insertAll_append (reg ps qs : List (String × Nat)) :
    insertAll reg (ps ++ qs) = insertAll (insertAll reg ps) qs := by
  simp [insertAll, List.foldl_append]

theorem lookupKey_insertAll_of_notMem (ps : List (String × Nat))
    (reg : List (String × Nat)) (p : String) (h : p ∉ ps.map Prod.fst) :
    lookupKey p (insertAll reg ps) = lookupKey p reg := by
  induction ps generalizing reg with
  | nil => rfl
  | cons hd tl ih =>
    obtain ⟨k, b⟩ := hd
    simp only [List.map_cons, List.mem_cons, not_or] at h
    have : insertAll reg ((k, b) :: tl) = insertAll (insertKey reg k b) tl := rfl
    rw [this, ih (insertKey reg k b) h.2, lookupKey_insertKey_ne _ _ _ _ h.1]

theorem lookupKey_insertAll_of_mem (ps : List (String × Nat))
    (reg : List (String × Nat)) (p : String) (b : Nat)
    (hnd : (ps.map Prod.fst).Nodup) (hm : (p, b) ∈ ps) :
    lookupKey p (insertAll reg ps) = some b := by
  induction ps generalizing reg with
  | nil => simp at hm
  | cons hd tl ih =>
    obtain ⟨k, c⟩ := hd
    rw [List.map_cons] at hnd
    obtain ⟨hhead, htail⟩ := List.nodup_cons.mp hnd
    have hstep : insertAll reg ((k, c) :: tl) = insertAll (insertKey reg k c) tl := rfl
    rcases List.mem_cons.mp hm with h | h
    · injection h with h1 h2
      subst h1
      subst h2
      rw [hstep, lookupKey_insertAll_of_notMem tl _ p hhead, lookupKey_insertKey_self]
    · rw [hstep]
      exact ih (insertKey reg k c) htail h

theorem insertAll_eq_append (ps : List (String × Nat)) (reg : List (String × Nat))
    (hnd : (ps.map Prod.fst).Nodup)
    (hfresh : ∀ p ∈ ps.map Prod.fst, lookupKey p reg = none) :
    insertAll reg ps = reg ++ ps := by
  induction ps generalizing reg with
  | nil => simp [insertAll]
  | cons hd tl ih =>
    obtain ⟨k, b⟩ := hd
    rw [List.map_cons] at hnd
    have hstep : insertAll reg ((k, b) :: tl) = insertAll (insertKey reg k b) tl := rfl
    have hk : lookupKey k reg = none := hfresh k (by simp)
    have hins : insertKey reg k b = reg ++ [(k, b)] := insertKey_of_lookupKey_none _ _ _ hk
    have hnd' := List.nodup_cons.mp hnd
    rw [hstep, hins, ih (reg ++ [(k, b)]) hnd'.2 ?_, List.append_assoc]
    · rfl
    · intro p hp
      have hpk : p ≠ k := by
        rintro rfl
        exact hnd'.1 hp
      rw [lookupKey_append_of_none p reg _ (hfresh p (by simp [hp]))]
      simp [lookupKey, Ne.symm hpk]

/-! ### The tree walk as a fold over its builder paths -/

mutual
/-- The walk `register _ pre t` performs exactly the writes enumerated by
`builderPathsFrom pre t`, in order. -/
theorem register_eq_insertAll (t : TreeVal) (reg : List (String × Nat)) (pre : String) :
    register reg pre t = insertAll reg (builderPathsFrom pre t) := by
  cases t with
  | builder b => rfl
  | node es => exact registerEntries_eq_insertAll es reg pre
  | scalar => rfl

/-- Entry-list version of `register_eq_insertAll`. -/
theorem registerEntries_eq_insertAll (es : Entries) (reg : List (String × Nat)) (pre : String) :
    registerEntries reg pre es = insertAll reg (builderEntryPaths pre es) := by
  cases es with
  | nil => rfl
  | cons k v rest =>
    cases v with
    | builder b =>
      show registerEntries (insertKey reg (pre ++ "." ++ k) b) pre rest = _
      rw [registerEntries_eq_insertAll rest]
      rfl
    | node es2 =>
      show registerEntries (register reg (pre ++ "." ++ k) (TreeVal.node es2)) pre rest = _
      rw [registerEntries_eq_insertAll rest,
        register_eq_insertAll (TreeVal.node es2) reg (pre ++ "." ++ k)]
      rw [show builderEntryPaths pre (Entries.cons k (TreeVal.node es2) rest) =
        builderPathsFrom (pre ++ "." ++ k) (TreeVal.node es2) ++ builderEntryPaths pre rest
        from rfl]
      rw [insertAll_append]
    | scalar =>
      show registerEntries reg pre rest = _
      rw [registerEntries_eq_insertAll rest]
      rfl
end

mutual
/-- Dropping the inert (non-function, non-object) entries of a tree does not
change what the walk registers. -/
theorem register_pruneScalars (t : TreeVal) (reg : List (String × Nat)) (pre : String) :
    register reg pre (pruneScalars t) = register reg pre t := by
  cases t with
  | builder b => rfl
  | node es =>
    show registerEntries reg pre (pruneEntries es) = registerEntries reg pre es
    exact registerEntries_pruneEntries es reg pre
  | scalar => rfl

/-- Entry-list version of `register_pruneScalars`. -/
theorem registerEntries_pruneEntries (es : Entries) (reg : List (String × Nat)) (pre : String) :
    registerEntries reg pre (pruneEntries es) = registerEntries reg pre es := by
  cases es with
  | nil => rfl
  | cons k v rest =>
    cases v with
    | builder b =>
      show registerEntries (insertKey reg (pre ++ "." ++ k) b) pre (pruneEntries rest) = _
      rw [registerEntries_pruneEntries rest]
      rfl
    | node es2 =>
      show registerEntries
          (register reg (pre ++ "." ++ k) (pruneScalars (TreeVal.node es2))) pre
          (pruneEntries rest) = _
      rw [registerEntries_pruneEntries rest,
        register_pruneScalars (TreeVal.node es2) reg (pre ++ "." ++ k)]
      rfl
    | scalar =>
      show registerEntries reg pre (pruneEntries rest) = _
      rw [registerEntries_pruneEntries rest]
      rfl
end

/-! ### Tree positions and dotted paths -/

/-- JS property read on an object literal: the value stored under key `k`. -/
def findEntry (k : String) : Entries → Option TreeVal
  | .nil => none
  | .cons a v rest => if a = k then some v else findEntry k rest

/-- The value sitting at the chain of keys `ks` inside a tree, when the chain
only crosses plain objects. -/
def valueAtKeys : TreeVal → List String → Option TreeVal
  | t, [] => some t
  | .node es, k :: ks =>
    match findEntry k es with
    | some v => valueAtKeys v ks
    | none => none
  | .builder _, _ :: _ => none
  | .scalar, _ :: _ => none

/-- The dotted path of the chain of keys `ks` under prefix `pre`, exactly as
the walk accumulates it: `fullKey = prefix + "." + key` at each step. -/
def pathJoin (pre : String) : List String → String
  | [] => pre
  | k :: ks => pathJoin (pre ++ "." ++ k) ks

theorem builderEntryPaths_cons (pre k : String) (v : TreeVal) (rest : Entries) :
    builderEntryPaths pre (.cons k v rest) =
      builderPathsFrom (pre ++ "." ++ k) v ++ builderEntryPaths pre rest := by
  cases v <;> rfl

theorem mem_of_findEntry_builderPaths (es : Entries) (k pre : String) (v : TreeVal)
    (hf : findEntry k es = some v) :
    ∀ x ∈ builderPathsFrom (pre ++ "." ++ k) v, x ∈ builderEntryPaths pre es := by
  cases es with
  | nil => simp [findEntry] at hf
  | cons a w rest =>
    intro x hx
    rw [builderEntryPaths_cons]
    by_cases hak : a = k
    · subst hak
      simp [findEntry] at hf
      subst hf
      exact List.mem_append_left _ hx
    · simp only [findEntry, if_neg hak] at hf
      exact List.mem_append_right _ (mem_of_findEntry_builderPaths rest k pre v hf x hx)

theorem mem_builderPaths_of_valueAtKeys (ks : List String) (t : TreeVal) (pre : String)
    (b : Nat) (h : valueAtKeys t ks = some (TreeVal.builder b)) :
    (pathJoin pre ks, b) ∈ builderPathsFrom pre t := by
  induction ks generalizing t pre with
  | nil =>
    simp only [valueAtKeys, Option.some.injEq] at h
    subst h
    simp [builderPathsFrom, pathJoin]
  | cons k ks ih =>
    cases t with
    | builder c => simp [valueAtKeys] at h
    | scalar => simp [valueAtKeys] at h
    | node es =>
      cases hf : findEntry k es with
      | none => simp [valueAtKeys, hf] at h
      | some v =>
        simp only [valueAtKeys, hf] at h
        have hmem := ih v (pre ++ "." ++ k) h
        exact mem_of_findEntry_builderPaths es k pre v hf _ hmem

theorem mem_of_findEntry_subtreePaths (es : Entries) (k pre : String) (v : TreeVal)
    (hf : findEntry k es = some v) :
    ∀ x ∈ subtreePathsFrom (pre ++ "." ++ k) v, x ∈ subtreeEntryPaths pre es := by
  cases es with
  | nil => simp [findEntry] at hf
  | cons a w rest =>
    intro x hx
    by_cases hak : a = k
    · subst hak
      simp [findEntry] at hf
      subst hf
      cases w with
      | builder c => simp [subtreePathsFrom] at hx
      | scalar => simp [subtreePathsFrom] at hx
      | node es2 =>
        show x ∈ ((pre ++ "." ++ a) :: subtreePathsFrom (pre ++ "." ++ a) (TreeVal.node es2))
          ++ subtreeEntryPaths pre rest
        exact List.mem_append_left _ (List.mem_cons_of_mem _ hx)
    · simp only [findEntry, if_neg hak] at hf
      have hrec := mem_of_findEntry_subtreePaths rest k pre v hf x hx
      cases w with
      | builder c => exact hrec
      | scalar => exact hrec
      | node es2 =>
        show x ∈ ((pre ++ "." ++ a) :: subtreePathsFrom (pre ++ "." ++ a) (TreeVal.node es2))
          ++ subtreeEntryPaths pre rest
        exact List.mem_append_right _ hrec

theorem head_mem_subtreePaths_of_findEntry (es : Entries) (k pre : String) (es2 : Entries)
    (hf : findEntry k es = some (TreeVal.node es2)) :
    (pre ++ "." ++ k) ∈ subtreeEntryPaths pre es := by
  cases es with
  | nil => simp [findEntry] at hf
  | cons a w rest =>
    by_cases hak : a = k
    · subst hak
      simp [findEntry] at hf
      subst hf
      show (pre ++ "." ++ a) ∈ ((pre ++ "." ++ a) :: subtreePathsFrom (pre ++ "." ++ a)
        (TreeVal.node es2)) ++ subtreeEntryPaths pre rest
      exact List.mem_append_left _ (List.mem_cons_self _ _)
    · simp only [findEntry, if_neg hak] at hf
      have hrec := head_mem_subtreePaths_of_findEntry rest k pre es2 hf
      cases w with
      | builder c => exact hrec
      | scalar => exact hrec
      | node es3 =>
        show _ ∈ ((pre ++ "." ++ a) :: subtreePathsFrom (pre ++ "." ++ a) (TreeVal.node es3))
          ++ subtreeEntryPaths pre rest
        exact List.mem_append_right _ hrec

theorem mem_subtreePaths_of_valueAtKeys (ks : List String) (t : TreeVal) (pre : String)
    (es2 : Entries) (hne : ks ≠ []) (h : valueAtKeys t ks = some (TreeVal.node es2)) :
    pathJoin pre ks ∈ subtreePathsFrom pre t := by
  induction ks generalizing t pre with
  | nil => exact absurd rfl hne
  | cons k ks ih =>
    cases t with
    | builder c => simp [valueAtKeys] at h
    | scalar => simp [valueAtKeys] at h
    | node es =>
      cases hf : findEntry k es with
      | none => simp [valueAtKeys, hf] at h
      | some v =>
        simp only [valueAtKeys, hf] at h
        cases ks with
        | nil =>
          simp only [valueAtKeys, Option.some.injEq] at h
          subst h
          exact head_mem_subtreePaths_of_findEntry es k pre es2 hf
        | cons k2 ks2 =>
          have hmem := ih v (pre ++ "." ++ k) (by simp) h
          exact mem_of_findEntry_subtreePaths es k pre v hf _ hmem

mutual
/-- Every builder path under prefix `pre` is at least as long as `pre`. -/
theorem le_length_of_mem_builderPathsFrom (t : TreeVal) (pre p : String) (b : Nat)
    (h : (p, b) ∈ builderPathsFrom pre t) : pre.length ≤ p.length := by
  cases t with
  | builder c =>
    simp only [builderPathsFrom, List.mem_singleton, Prod.mk.injEq] at h
    exact h.1 ▸ Nat.le_refl _
  | node es => exact Nat.le_of_lt (lt_length_of_mem_builderEntryPaths es pre p b h)
  | scalar => simp [builderPathsFrom] at h

/-- Every builder path coming from the entries of an object under prefix `pre`
is strictly longer than `pre`. -/
theorem lt_length_of_mem_builderEntryPaths (es : Entries) (pre p : String) (b : Nat)
    (h : (p, b) ∈ builderEntryPaths pre es) : pre.length < p.length := by
  cases es with
  | nil => simp [builderEntryPaths] at h
  | cons k v rest =>
    rw [builderEntryPaths_cons] at h
    rcases List.mem_append.mp h with h | h
    · have h1 := le_length_of_mem_builderPathsFrom v (pre ++ "." ++ k) p b h
      have h2 : (pre ++ "." ++ k).length = pre.length + ".".length + k.length := by
        simp [String.length_append]
      have h3 : ".".length = 1 := rfl
      omega
    · exact lt_length_of_mem_builderEntryPaths rest pre p b h
end

/-- `create` on a fresh name: returns the tree, appends the name, walks the tree. -/
theorem create_fresh_eq (env name : String) (tree : TreeVal) (st : RegistryState)
    (h : name ∉ st.keyNames) :
    create env name tree st =
      (Except.ok tree, ⟨register st.registry name tree, st.keyNames ++ [name]⟩) := by
  simp [create, h]

/-- A sequence of `create` calls on fresh, pairwise distinct names whose
flattened paths are globally collision-free appends each call's builder-path
list to the registry. -/
theorem createSeq_registry_append (env : String) (calls : List (String × TreeVal))
    (st : RegistryState)
    (hnames : (calls.map Prod.fst).Nodup)
    (hfresh : ∀ n ∈ calls.map Prod.fst, n ∉ st.keyNames)
    (hpaths : ((allBuilderPaths calls).map Prod.fst).Nodup)
    (hdisj : ∀ p ∈ (allBuilderPaths calls).map Prod.fst, lookupKey p st.registry = none) :
    (createSeq env calls st).registry = st.registry ++ allBuilderPaths calls := by
  induction calls generalizing st with
  | nil => simp [createSeq, allBuilderPaths]
  | cons hd rest ih =>
    obtain ⟨n, t⟩ := hd
    have hsplit : allBuilderPaths ((n, t) :: rest) =
        builderPathsFrom n t ++ allBuilderPaths rest := by
      simp [allBuilderPaths]
    rw [hsplit, List.map_append] at hpaths hdisj
    obtain ⟨hnd1, hnd2, hdisj12⟩ := List.nodup_append.mp hpaths
    rw [List.map_cons] at hnames hfresh
    obtain ⟨hnhead, hntail⟩ := List.nodup_cons.mp hnames
    have hn : n ∉ st.keyNames := hfresh n (List.mem_cons_self _ _)
    have hreg2 : register st.registry n t = st.registry ++ builderPathsFrom n t := by
      rw [register_eq_insertAll]
      exact insertAll_eq_append _ _ hnd1
        (fun p hp => hdisj p (List.mem_append_left _ hp))
    show (createSeq env rest (create env n t st).2).registry = _
    rw [create_fresh_eq env n t st hn]
    have hmain := ih (⟨register st.registry n t, st.keyNames ++ [n]⟩ : RegistryState)
      hntail
      (by
        intro m hm
        simp only [List.mem_append, List.mem_singleton, not_or]
        refine ⟨hfresh m (List.mem_cons_of_mem _ hm), ?_⟩
        rintro rfl
        exact hnhead hm)
      hnd2
      (by
        intro p hp
        show lookupKey p (register st.registry n t) = none
        rw [hreg2, lookupKey_append_of_none p _ _ (hdisj p (List.mem_append_right _ hp))]
        exact (lookupKey_eq_none_iff _ _).mpr (fun hmem => hdisj12 hmem hp))
    rw [hsplit]
    show (createSeq env rest (⟨register st.registry n t, st.keyNames ++ [n]⟩ :
      RegistryState)).registry = _
    rw [hmain]
    show register st.registry n t ++ allBuilderPaths rest = _
    rw [hreg2, List.append_assoc]

/-! ### Concrete example trees -/

/-- The nested tree `{ users: { list: f } }` of the admin example, `f` numbered 0. -/
def adminTreeEx : TreeVal :=
  .node (.cons "users" (.node (.cons "list" (.builder 0) .nil)) .nil)

/-- `{ profile: f }`, `f` numbered 0. -/
def userTreeEx : TreeVal := .node (.cons "profile" (.builder 0) .nil)

/-- `{ list: g }`, `g` numbered 1. -/
def postTreeEx : TreeVal := .node (.cons "list" (.builder 1) .nil)

/-- `{ b: { c: f }, "b.c": g }`: a dotted sibling key whose flattened path
collides with the nested position `(b, c)`; `f` is 0, `g` is 1. -/
def dottedTreeEx : TreeVal :=
  .node (.cons "b" (.node (.cons "c" (.builder 0) .nil)) (.cons "b.c" (.builder 1) .nil))

/-- `{ b: { c: f } }`, `f` numbered 0. -/
def deepTreeEx : TreeVal := .node (.cons "b" (.node (.cons "c" (.builder 0) .nil)) .nil)

/-- `{ c: g }`, `g` numbered 1. -/
def flatTreeEx : TreeVal := .node (.cons "c" (.builder 1) .nil)

/-- `{ profile: f, meta: "v1" }`: a builder next to an inert scalar leaf. -/
def mixedTreeEx : TreeVal := .node (.cons "profile" (.builder 0) (.cons "meta" .scalar .nil))

/-! ### Claims -/

/-- C1 counterexample: calling `migrateLegacyKeys "oldUserKey" g` (with `g`
numbered 0) on the empty registry succeeds and returns `g`, but afterwards the
introspection accessor does NOT map `"oldUserKey"` to `g`: the function never
writes the legacy name into the flat index, contradicting the claim that
`getQueryKeys()[s] === g` afterwards. -/
theorem migrateLegacyKeys_no_write_cex :
    (migrateLegacyKeys "oldUserKey" 0 emptyState).1 = Except.ok 0 ∧
    lookupKey "oldUserKey"
      (getQueryKeys (migrateLegacyKeys "oldUserKey" 0 emptyState).2).entries ≠ some 0 := by
  exact ⟨rfl, by decide⟩

/-- C1 (amended): for every legacy name `s` not registered in `flatIndex` and
every builder `g`, `migrateLegacyKeys s g` succeeds and returns `g`, but
registers nothing: the registry is unchanged and the introspection accessor
still has no entry at `s` afterwards. -/
theorem migrateLegacyKeys_fresh_ok (s : String) (g : Nat) (st : RegistryState)
    (h : lookupKey s st.registry = none) :
    migrateLegacyKeys s g st = (Except.ok g, st) ∧
    lookupKey s (getQueryKeys (migrateLegacyKeys s g st).2).entries = none := by
  refine ⟨?_, ?_⟩ <;> simp [migrateLegacyKeys, getQueryKeys, h]

/-- C1 witness: the amended claim at `s = "oldUserKey"`, `g = 0`, empty state. -/
theorem migrateLegacyKeys_fresh_ok_witness :
    migrateLegacyKeys "oldUserKey" 0 emptyState = (Except.ok 0, emptyState) ∧
    lookupKey "oldUserKey"
      (getQueryKeys (migrateLegacyKeys "oldUserKey" 0 emptyState).2).entries = none :=
  migrateLegacyKeys_fresh_ok "oldUserKey" 0 emptyState rfl

/-- C3: in strict mode (`NODE_ENV` different from `"production"`), a second
`create` with an already-seen name throws the duplicate-name error naming the
colliding name, and the static state is exactly what it was before the call. -/
theorem create_duplicate_strict_errors (env name : String) (tree : TreeVal)
    (st : RegistryState) (hdup : name ∈ st.keyNames) (henv : env ≠ "production") :
    create env name tree st =
      (Except.error ("QueryKeyManager: Key name \x22" ++ name ++ "\x22 already exists"), st) := by
  simp [create, hdup, henv]

/-- C3 witness: registering `"user"` twice in development mode. -/
theorem create_duplicate_strict_errors_witness :
    create "development" "user" postTreeEx
        (create "development" "user" userTreeEx emptyState).2 =
      (Except.error ("QueryKeyManager: Key name \x22user\x22 already exists"),
        (create "development" "user" userTreeEx emptyState).2) :=
  create_duplicate_strict_errors "development" "user" postTreeEx _ (by decide) (by decide)

/-- C4: in lenient mode (`NODE_ENV === "production"`), a second `create` with
an already-seen name raises nothing, returns its tree unmodified, and performs
no registration: the static state (hence `flatIndex`) is unchanged. -/
theorem create_duplicate_lenient_noop (name : String) (tree : TreeVal)
    (st : RegistryState) (hdup : name ∈ st.keyNames) :
    create "production" name tree st = (Except.ok tree, st) := by
  simp [create, hdup]

/-- C4 witness: registering `"user"` twice in production mode. -/
theorem create_duplicate_lenient_noop_witness :
    create "production" "user" postTreeEx
        (create "production" "user" userTreeEx emptyState).2 =
      (Except.ok postTreeEx, (create "production" "user" userTreeEx emptyState).2) :=
  create_duplicate_lenient_noop "user" postTreeEx _ (by decide)

/-- C6: when the legacy name already exists as a registered path,
`migrateLegacyKeys` throws the conflict error naming the offending key. -/
theorem migrateLegacyKeys_conflict_errors (s : String) (g b : Nat) (st : RegistryState)
    (h : lookupKey s st.registry = some b) :
    migrateLegacyKeys s g st =
      (Except.error ("Legacy key " ++ s ++ " conflicts with new keys"), st) := by
  simp [migrateLegacyKeys, getQueryKeys, h]

/-- C6 witness: after `create("user", { profile: f })`, migrating the legacy
name `"user.profile"` throws the conflict error. -/
theorem migrateLegacyKeys_conflict_errors_witness :
    migrateLegacyKeys "user.profile" 5 (create "development" "user" userTreeEx emptyState).2 =
      (Except.error ("Legacy key " ++ "user.profile" ++ " conflicts with new keys"),
        (create "development" "user" userTreeEx emptyState).2) :=
  migrateLegacyKeys_conflict_errors "user.profile" 5 0 _ (by decide)

/-- C7: `clearRegistry` empties both the flat index and the seen-name set, is
idempotent, leaves `getQueryKeys()` empty, and afterwards any name (including
one registered or rejected before the clear) can be created without error. -/
theorem clearRegistry_resets (st : RegistryState) :
    clearRegistry (clearRegistry st) = clearRegistry st ∧
    (clearRegistry st).registry = [] ∧
    (clearRegistry st).keyNames = [] ∧
    (getQueryKeys (clearRegistry st)).entries = [] ∧
    ∀ env name tree, (create env name tree (clearRegistry st)).1 = Except.ok tree := by
  refine ⟨rfl, rfl, rfl, rfl, ?_⟩
  intro env name tree
  simp [create, clearRegistry]

/-- C8: `getQueryKeys` never fails, returns a snapshot whose entries equal the
flat index, and the snapshot is frozen: a caller-side property assignment
throws a `TypeError` (it neither succeeds silently nor reaches the registry,
which the pure snapshot never aliases). -/
theorem getQueryKeys_frozen_snapshot (st : RegistryState) (k : String) (v : Nat) :
    (getQueryKeys st).entries = st.registry ∧
    (getQueryKeys st).frozen = true ∧
    FrozenMap.assign (getQueryKeys st) k v =
      Except.error ("TypeError: Cannot assign to read only property " ++ k) :=
  ⟨rfl, rfl, rfl⟩

/-- C10: `migrateLegacyKeys` never mutates the registry state: whether it
returns the builder or throws the conflict error, the static state after the
call is exactly the state before it. -/
theorem migrateLegacyKeys_preserves_state (s : String) (g : Nat) (st : RegistryState) :
    (migrateLegacyKeys s g st).2 = st := by
  cases h : lookupKey s (getQueryKeys st).entries <;> simp [migrateLegacyKeys, h]

/-- C2 counterexample: in `create("a", { b: { c: f }, "b.c": g })` the builder
`f` (numbered 0) is nested at keys `b`, `c` under namespace `"a"`, so the claim
puts it at `"a.b.c"`; but the sibling entry with the dotted key `"b.c"`
flattens to the same path and overwrites it, so afterwards `"a.b.c"` maps to
`g` (numbered 1), not to `f`. -/
theorem create_flatten_dotted_key_cex :
    valueAtKeys dottedTreeEx ["b", "c"] = some (TreeVal.builder 0) ∧
    pathJoin "a" ["b", "c"] = "a.b.c" ∧
    lookupKey "a.b.c" (create "development" "a" dottedTreeEx emptyState).2.registry
      = some 1 ∧
    lookupKey "a.b.c" (create "development" "a" dottedTreeEx emptyState).2.registry
      ≠ some 0 := by
  refine ⟨by decide, by decide, by decide, by decide⟩

/-- C2 (amended): provided the dotted paths of the tree's builder positions
are pairwise distinct and no sub-tree position flattens to the same path as a
builder position (both can fail only through keys that themselves contain
dots), `create(name, tree)` on a fresh name succeeds, registers every builder
nested at keys `k1…kn` at the path `name.k1.….kn`, and creates no entry at the
path of any sub-tree position (including the bare namespace name): lookups
there are unchanged from before the call.  In particular this covers the
`admin` example of the claim. -/
theorem create_flattens_nested (env name : String) (tree : TreeVal) (st : RegistryState)
    (hfresh : name ∉ st.keyNames)
    (hnd : ((builderPathsFrom name tree).map Prod.fst).Nodup)
    (hdisj : ∀ p ∈ subtreePathsFrom name tree,
      p ∉ (builderPathsFrom name tree).map Prod.fst) :
    (create env name tree st).1 = Except.ok tree ∧
    (∀ ks b, valueAtKeys tree ks = some (TreeVal.builder b) →
      lookupKey (pathJoin name ks) (create env name tree st).2.registry = some b) ∧
    (∀ ks es2, valueAtKeys tree ks = some (TreeVal.node es2) →
      lookupKey (pathJoin name ks) (create env name tree st).2.registry =
        lookupKey (pathJoin name ks) st.registry) := by
  rw [create_fresh_eq env name tree st hfresh]
  refine ⟨rfl, ?_, ?_⟩
  · intro ks b hv
    show lookupKey (pathJoin name ks) (register st.registry name tree) = some b
    rw [register_eq_insertAll]
    exact lookupKey_insertAll_of_mem _ _ _ _ hnd
      (mem_builderPaths_of_valueAtKeys ks tree name b hv)
  · intro ks es2 hv
    show lookupKey (pathJoin name ks) (register st.registry name tree) = _
    rw [register_eq_insertAll]
    apply lookupKey_insertAll_of_notMem
    cases ks with
    | nil =>
      simp only [valueAtKeys, Option.some.injEq] at hv
      subst hv
      intro hmem
      obtain ⟨⟨p, b⟩, hpb, hfst⟩ := List.mem_map.mp hmem
      have hlt := lt_length_of_mem_builderEntryPaths es2 name p b hpb
      have hpn : p = name := hfst
      rw [hpn] at hlt
      exact Nat.lt_irrefl _ hlt
    | cons k ks2 =>
      exact hdisj _ (mem_subtreePaths_of_valueAtKeys (k :: ks2) tree name es2 (by simp) hv)

/-- C2 witness: the admin example — `"admin.users.list"` maps to `f` and no
entry exists at `"admin.users"`. -/
theorem create_flattens_nested_witness :
    lookupKey "admin.users.list"
      (create "development" "admin" adminTreeEx emptyState).2.registry = some 0 ∧
    lookupKey "admin.users"
      (create "development" "admin" adminTreeEx emptyState).2.registry = none := by
  have h := create_flattens_nested "development" "admin" adminTreeEx emptyState
    (by decide) (by decide) (by decide)
  constructor
  · exact h.2.1 ["users", "list"] 0 (by decide)
  · exact (h.2.2 ["users"] (.cons "list" (.builder 0) .nil) (by decide)).trans rfl

/-- C5 counterexample: the names `"a"` and `"a.b"` are distinct, yet
`create("a", { b: { c: f } })` followed by `create("a.b", { c: g })` makes the
second call overwrite the first call's entry at path `"a.b.c"`: afterwards the
path maps to `g` (numbered 1), not to `f` (numbered 0), which the first call
had registered there. -/
theorem createSeq_distinct_names_overwrite_cex :
    ("a" : String) ≠ "a.b" ∧
    ("a.b.c", 0) ∈ builderPathsFrom "a" deepTreeEx ∧
    lookupKey "a.b.c" (create "development" "a" deepTreeEx emptyState).2.registry
      = some 0 ∧
    lookupKey "a.b.c"
      (createSeq "development" [("a", deepTreeEx), ("a.b", flatTreeEx)] emptyState).registry
      = some 1 := by
  refine ⟨by decide, by decide, by decide, by decide⟩

/-- C5 (amended): for every sequence of `create` calls with pairwise distinct
namespace names, starting from the empty registry, provided additionally that
the flattened paths produced across all the calls are pairwise distinct (which
can fail only through dots inside names or keys), the final flat index is
exactly the concatenation of each call's (path, builder) pairs: every
registered path is bound to exactly one builder, the one at the tree position
of the call that produced it, and no entry is overwritten across calls. -/
theorem createSeq_collision_free_unique (env : String) (calls : List (String × TreeVal))
    (hnames : (calls.map Prod.fst).Nodup)
    (hpaths : ((allBuilderPaths calls).map Prod.fst).Nodup) :
    (createSeq env calls emptyState).registry = allBuilderPaths calls ∧
    ∀ pb ∈ allBuilderPaths calls,
      lookupKey pb.1 (createSeq env calls emptyState).registry = some pb.2 := by
  have hmain := createSeq_registry_append env calls emptyState hnames
    (by intro n _; simp [emptyState]) hpaths (by intro p _; rfl)
  rw [show emptyState.registry = [] from rfl, List.nil_append] at hmain
  refine ⟨hmain, ?_⟩
  intro pb hpb
  rw [hmain]
  obtain ⟨p, b⟩ := pb
  exact lookupKey_of_mem_nodup _ _ _ hpaths hpb

/-- C5 witness: two distinct-name calls with disjoint paths — the registry is
exactly the two calls' entries in order. -/
theorem createSeq_collision_free_unique_witness :
    (createSeq "development" [("user", userTreeEx), ("post", postTreeEx)] emptyState).registry
      = allBuilderPaths [("user", userTreeEx), ("post", postTreeEx)] :=
  (createSeq_collision_free_unique "development"
    [("user", userTreeEx), ("post", postTreeEx)] (by decide) (by decide)).1

/-- C9: entries whose value is neither a function nor a keyed structure are
silently ignored by the tree walk: `create` on a fresh name produces exactly
the state it would produce with all inert leaves removed (so they are
registered at no path, and sibling builders register normally), and the call
does not fail. -/
theorem create_ignores_inert_leaves (env name : String) (tree : TreeVal)
    (st : RegistryState) (hfresh : name ∉ st.keyNames) :
    (create env name tree st).2 = (create env name (pruneScalars tree) st).2 ∧
    (create env name tree st).1 = Except.ok tree := by
  rw [create_fresh_eq env name tree st hfresh,
    create_fresh_eq env name (pruneScalars tree) st hfresh]
  refine ⟨?_, rfl⟩
  show (⟨register st.registry name tree, st.keyNames ++ [name]⟩ : RegistryState) = _
  rw [register_pruneScalars]

/-- C9 witness: `{ profile: f, meta: "v1" }` — the inert `meta` leaf is
ignored and the sibling builder registers normally. -/
theorem create_ignores_inert_leaves_witness :
    (create "development" "user" mixedTreeEx emptyState).2 =
      (create "development" "user" (pruneScalars mixedTreeEx) emptyState).2 ∧
    (create "development" "user" mixedTreeEx emptyState).1 = Except.ok mixedTreeEx :=
  create_ignores_inert_leaves "development" "user" mixedTreeEx emptyState (by decide)

end RQKM
